import Mathlib

/-!
Verification development for a tabular reinforcement-learning Tic-Tac-Toe
program (files `tictactoe.py` and `reinforcement-learning.py`).

Shallow embedding notes:
* The board (a 3x3 numpy integer array) is a function `Fin 3 → Fin 3 → Int`;
  cell values are 1 (X), -1 (O), 0 (empty), exactly as in the source.
* A `TicTacToe` value carries the four fields the program reads:
  `board`, `current_player`, `game_over`, `winner`.  The `move_history`
  field of the source is never read by any of the verified operations and
  is omitted.  Python's in-place mutation becomes explicit state passing.
* Python floats are embedded as rationals (exact real arithmetic).
* The value dictionary hashes states by `str(board.flatten())`, i.e. by the
  grid alone, so the table is keyed on `Board`.  A Python dict holds at
  most one entry per key by construction; the table is embedded as a
  membership predicate together with a value function.
* Exceptions (`KeyError`, subscripting `None`, the `raise` in the
  enumeration) are embedded with `Option`: a `none` result means the
  corresponding Python call raises.
-/

/-- The `Player` enum of `tictactoe.py`: X = 1, O = -1, EMPTY = 0. -/
inductive Player where
  | X : Player
  | O : Player
  | EMPTY : Player
deriving DecidableEq, Repr

/-- The numeric `.value` of the `Player` enum. -/
def Player.value : Player → Int
  | .X => 1
  | .O => -1
  | .EMPTY => 0

/-- The 3x3 numpy board: entry `b i j` is row `i`, column `j`. -/
def Board := Fin 3 → Fin 3 → Int

instance : DecidableEq Board := by unfold Board; infer_instance

/-- Game-state record: the fields of the Python `TicTacToe` object that the
program reads (`move_history` is write-only in the verified code paths). -/
structure TicTacToe where
  board : Board
  current_player : Player
  game_over : Bool
  winner : Option Player
deriving DecidableEq

/-- `TicTacToe.__init__` / `reset`: empty board, X to move, not over. -/
def TicTacToe.init : TicTacToe :=
  { board := fun _ _ => 0
    current_player := Player.X
    game_over := false
    winner := none }

/-- Conversion of a Python int index to a board coordinate.  All call sites
either range over 0..2 or are guarded by the 0 <= i < 3 check of
`is_valid_move`, so the `% 3` never changes an in-range index. -/
def idxN (n : Nat) : Fin 3 := ⟨n % 3, Nat.mod_lt n (by norm_num)⟩

/-- Conversion for (possibly negative) Python ints; guarded as in `idxN`. -/
def idx (n : Int) : Fin 3 := idxN n.toNat

/-- `TicTacToe.get_valid_moves`: all empty cells, rows outer, columns inner
(row-major), as (row, col) pairs.  Stated on the board because the method
reads only `self.board`. -/
def boardValidMoves (b : Board) : List (Int × Int) :=
  (List.range 3).flatMap (fun r =>
    (List.range 3).filterMap (fun c =>
      if b (idxN r) (idxN c) = 0 then some ((r : Int), (c : Int)) else none))

/-- `TicTacToe.get_valid_moves` on a game state. -/
def get_valid_moves (s : TicTacToe) : List (Int × Int) :=
  boardValidMoves s.board

/-- `TicTacToe.is_valid_move`: rejects moves after game over, out-of-range
coordinates, and occupied cells, in that order. -/
def is_valid_move (s : TicTacToe) (row col : Int) : Bool :=
  if s.game_over then false
  else if ¬(0 ≤ row ∧ row < 3 ∧ 0 ≤ col ∧ col < 3) then false
  else decide (s.board (idx row) (idx col) = 0)

/-- The numpy assignment `board[row, col] = v`. -/
def place (b : Board) (r c : Fin 3) (v : Int) : Board :=
  fun i j => if i = r ∧ j = c then v else b i j

/-- Row sum `board[row].sum()`. -/
def rowSum (b : Board) (r : Fin 3) : Int := b r 0 + b r 1 + b r 2

/-- Column sum `board[:, col].sum()`. -/
def colSum (b : Board) (c : Fin 3) : Int := b 0 c + b 1 c + b 2 c

/-- Main diagonal sum `np.trace(board)`. -/
def diagSum (b : Board) : Int := b 0 0 + b 1 1 + b 2 2

/-- Anti-diagonal sum `board[0,2] + board[1,1] + board[2,0]`. -/
def antiSum (b : Board) : Int := b 0 2 + b 1 1 + b 2 0

/-- `TicTacToe._check_game_over`, which only reads `self.board` and either
sets `(game_over, winner)` and returns a reward, or leaves them at the
values they necessarily have at the call site (`False`, `None`) and returns
`None`.  Result: `(game_over, winner, reward)`.  The branches are checked
in source order: rows 0-2, columns 0-2, main diagonal, anti-diagonal,
draw. -/
def check_game_over (b : Board) : Bool × Option Player × Option Int :=
  if (rowSum b 0).natAbs = 3 then
    let w := if b 0 0 = 1 then Player.X else Player.O
    (true, some w, some (if w = Player.X then 1 else -1))
  else if (rowSum b 1).natAbs = 3 then
    let w := if b 1 0 = 1 then Player.X else Player.O
    (true, some w, some (if w = Player.X then 1 else -1))
  else if (rowSum b 2).natAbs = 3 then
    let w := if b 2 0 = 1 then Player.X else Player.O
    (true, some w, some (if w = Player.X then 1 else -1))
  else if (colSum b 0).natAbs = 3 then
    let w := if b 0 0 = 1 then Player.X else Player.O
    (true, some w, some (if w = Player.X then 1 else -1))
  else if (colSum b 1).natAbs = 3 then
    let w := if b 0 1 = 1 then Player.X else Player.O
    (true, some w, some (if w = Player.X then 1 else -1))
  else if (colSum b 2).natAbs = 3 then
    let w := if b 0 2 = 1 then Player.X else Player.O
    (true, some w, some (if w = Player.X then 1 else -1))
  else if (diagSum b).natAbs = 3 then
    let w := if diagSum b = 3 then Player.X else Player.O
    (true, some w, some (if w = Player.X then 1 else -1))
  else if (antiSum b).natAbs = 3 then
    let w := if antiSum b = 3 then Player.X else Player.O
    (true, some w, some (if w = Player.X then 1 else -1))
  else if boardValidMoves b = [] then
    (true, none, some 0)
  else
    (false, none, none)

/-- The player switch at the end of `make_move`:
`Player.O if current == Player.X else Player.X`. -/
def otherPlayer (p : Player) : Player :=
  if p = Player.X then Player.O else Player.X

/-- `TicTacToe.make_move`: returns the post-call object together with the
`(success, reward)` pair the method returns.  An invalid move leaves every
field unchanged and returns `(False, None)`. -/
def make_move (s : TicTacToe) (row col : Int) : TicTacToe × Bool × Option Int :=
  if is_valid_move s row col then
    let b := place s.board (idx row) (idx col) s.current_player.value
    let res := check_game_over b
    ({ board := b
       current_player := if res.1 then s.current_player else otherPlayer s.current_player
       game_over := res.1
       winner := res.2.1 },
     true, res.2.2)
  else
    (s, false, none)

/-- States reachable from the empty board by a sequence of legal moves
(moves accepted by `is_valid_move`; in particular no move is ever applied
to a terminal state). -/
inductive Reachable : TicTacToe → Prop where
  | init : Reachable TicTacToe.init
  | step {s : TicTacToe} (row col : Int) :
      Reachable s → is_valid_move s row col = true →
      Reachable (make_move s row col).1

/-- A board is reachable when some reachable game state carries it. -/
def BoardReachable (b : Board) : Prop :=
  ∃ s : TicTacToe, Reachable s ∧ s.board = b

/-- The `ValueFunction` dictionary `value : Dict[TicTacToe, float]`.  The
dict hashes/compares states by the grid alone, so it is keyed on `Board`;
`mem` is key membership and `val` the stored value (meaningful on keys).
A Python dict never holds two entries for one key, so one membership bit
and one value per board is an exact model. -/
structure VTable where
  mem : Board → Bool
  val : Board → ℚ

/-- The empty dict `{}` the enumeration starts from. -/
def VTable.empty : VTable := ⟨fun _ => false, fun _ => 0⟩

/-- The dict insertion `self.value[state] = v` for a fresh key. -/
def insertVal (t : VTable) (b : Board) (v : ℚ) : VTable :=
  ⟨fun x => decide (x = b) || t.mem x, fun x => if x = b then v else t.val x⟩

/-- `ValueFunction.get_value`: a plain dict lookup; `none` is the KeyError
raised on a missing state. -/
def get_value (t : VTable) (b : Board) : Option ℚ :=
  if t.mem b then some (t.val b) else none

/-- `ValueFunction.update_value`: evaluates `value[state]`, then
`value[state_prime]`, then stores the TD(0) result at `state`.  If either
lookup misses, the KeyError (`none`) fires before anything is written, so
no partial update is ever stored. -/
def update_value (t : VTable) (s sP : Board) (alpha : ℚ) : Option VTable :=
  if t.mem s then
    if t.mem sP then
      some ⟨t.mem, fun b =>
        if b = s then t.val s + alpha * (t.val sP - t.val s) else t.val b⟩
    else none
  else none

/-- The `match state.get_winner()` classification in `ValueFunction.__init__`:
no winner yields 0, X yields 1, O yields -1; any other value hits the
`raise` arm (`none`). -/
def classify : Option Player → Option ℚ
  | none => some 0
  | some Player.X => some 1
  | some Player.O => some (-1)
  | some Player.EMPTY => none

/-- The loop body's successor generation: for each valid move of `state`,
copy the state and call `make_move` on the copy (whose result is the copy
itself when the state is terminal, because `make_move` rejects the move). -/
def successors (s : TicTacToe) : List TicTacToe :=
  (get_valid_moves s).map (fun m => (make_move s m.1 m.2).1)

/-- The enumeration loop of `ValueFunction.__init__` as a fuel-indexed
function on the worklist (`open_states`) and the table.  Python pops an
arbitrary set element; the pop order does not influence the final table
(the theorems below depend only on membership reasoning), and we fix the
FIFO order.  A state already in the table is skipped; otherwise its value
is stored and its successors are pushed.  The `classify ... = none` arm is
the `raise` in the source (never taken from the real initial state, as
proved below); it stops with the worklist unchanged. -/
def build : Nat → List TicTacToe → VTable → List TicTacToe × VTable
  | 0, worklist, t => (worklist, t)
  | _ + 1, [], t => ([], t)
  | fuel + 1, s :: rest, t =>
    if t.mem s.board then build fuel rest t
    else
      match classify s.winner with
      | none => (s :: rest, t)
      | some v => build fuel (rest ++ successors s) (insertVal t s.board v)

/-- Fuel that provably exceeds the enumeration's step count (the measure
below starts at 10 * 3^9 + 1). -/
def vfFuel : Nat := 196831

/-- `ValueFunction.__init__()` run to completion from `{TicTacToe()}`. -/
def vfResult : List TicTacToe × VTable :=
  build vfFuel [TicTacToe.init] VTable.empty

/-- The `Agent` object: a table reference, the mutable exploration rate,
its decay, the per-role previous-state cursor, and the learning rate. -/
structure Agent where
  value_function : VTable
  exploration : ℚ
  exploration_decay : ℚ
  previous_state : Player → TicTacToe
  alpha : ℚ

/-- The selection loop of `Agent.get_move`: fold over the valid moves,
looking each hypothetical successor up in the table (KeyError = `none`
aborts), replacing the best only on a strict improvement.  X maximizes,
O minimizes. -/
def select_loop (p : Player) (vt : VTable) (g : TicTacToe) :
    List (Int × Int) → Option (Int × Int) × ℚ → Option (Option (Int × Int) × ℚ)
  | [], acc => some acc
  | m :: rest, acc =>
    match get_value vt ((make_move g m.1 m.2).1).board with
    | none => none
    | some v =>
      if p = Player.X then
        if acc.2 < v then select_loop p vt g rest (some m, v)
        else select_loop p vt g rest acc
      else
        if v < acc.2 then select_loop p vt g rest (some m, v)
        else select_loop p vt g rest acc

/-- The best-move scan of `Agent.get_move`: `best_move = None`,
`best_value = -1 if player == X else 1`, then the loop above. -/
def select_best (vt : VTable) (g : TicTacToe) (p : Player) :
    Option (Option (Int × Int) × ℚ) :=
  select_loop p vt g (get_valid_moves g)
    (none, if p = Player.X then (-1 : ℚ) else 1)

/-- `Agent.get_move`.  The two random draws are inputs: `randVal` models
`random.random()` (in [0,1)) and `randIdx` the index `random.randrange`
would return.  `none` models the call raising: a KeyError from a value
lookup, a ValueError from `randrange(0, 0)` / an out-of-range index
(`valid_moves[randIdx]?`), a TypeError from subscripting a `None`
`chosen_move`, or a KeyError inside `update_value`. -/
def get_move (ag : Agent) (g : TicTacToe) (p : Player) (randVal : ℚ)
    (randIdx : Nat) : Option (Agent × (Int × Int)) :=
  let valid_moves := get_valid_moves g
  match select_best ag.value_function g p with
  | none => none
  | some (best_move, _) =>
    let chosen : Option (Int × Int) :=
      if randVal < ag.exploration then valid_moves[randIdx]? else best_move
    match chosen with
    | none => none
    | some cm =>
      let expl := ag.exploration * ag.exploration_decay
      let new_game := (make_move g cm.1 cm.2).1
      match update_value ag.value_function (ag.previous_state p).board
          new_game.board ag.alpha with
      | none => none
      | some vt =>
        some ({ ag with
                  exploration := expl
                  value_function := vt
                  previous_state := Function.update ag.previous_state p new_game },
              cm)

/-- `Agent.lost_game`: one TD update from the role's previous state into
the final state; the only field written is the value table. -/
def lost_game (ag : Agent) (g : TicTacToe) (p : Player) : Option Agent :=
  (update_value ag.value_function (ag.previous_state p).board g.board ag.alpha).map
    (fun vt => { ag with value_function := vt })

/-- Three-in-a-row of mark `v` (row, column, main or anti diagonal). -/
def isLine (b : Board) (v : Int) : Prop :=
  (∃ r : Fin 3, b r 0 = v ∧ b r 1 = v ∧ b r 2 = v) ∨
  (∃ c : Fin 3, b 0 c = v ∧ b 1 c = v ∧ b 2 c = v) ∨
  (b 0 0 = v ∧ b 1 1 = v ∧ b 2 2 = v) ∨
  (b 0 2 = v ∧ b 1 1 = v ∧ b 2 0 = v)

instance (b : Board) (v : Int) : Decidable (isLine b v) := by
  unfold isLine; infer_instance

/-- All nine cells filled. -/
def fullB (b : Board) : Prop := ∀ i j : Fin 3, b i j ≠ 0

instance (b : Board) : Decidable (fullB b) := by
  unfold fullB; infer_instance

/-- A board is terminal when a mark has three-in-a-row or it is full. -/
def terminalB (b : Board) : Prop := isLine b 1 ∨ isLine b (-1) ∨ fullB b

instance (b : Board) : Decidable (terminalB b) := by
  unfold terminalB; infer_instance

/-- Every cell holds one of the three mark values. -/
def cellsValid (b : Board) : Prop := ∀ i j : Fin 3, b i j = 0 ∨ b i j = 1 ∨ b i j = -1

instance (b : Board) : Decidable (cellsValid b) := by
  unfold cellsValid; infer_instance

/-- Number of cells holding value `v`. -/
def countV (b : Board) (v : Int) : Nat :=
  ((Finset.univ : Finset (Fin 3 × Fin 3)).filter (fun q => b q.1 q.2 = v)).card

/-- The player whose mark was placed last (meaningful once a move exists). -/
def lastMover (b : Board) : Player :=
  if countV b 1 = countV b (-1) + 1 then Player.X else Player.O

/-- The player to move on a live board. -/
def nextMover (b : Board) : Player :=
  if countV b 1 = countV b (-1) then Player.X else Player.O

/-- Invariant tying a game state's metadata fields to its grid; it holds
for every reachable state and makes the grid determine the whole state. -/
def StateInv (s : TicTacToe) : Prop :=
  cellsValid s.board ∧
  (countV s.board 1 = countV s.board (-1) ∨
    countV s.board 1 = countV s.board (-1) + 1) ∧
  (s.game_over = true ↔ terminalB s.board) ∧
  (s.winner = some Player.X ↔ isLine s.board 1) ∧
  (s.winner = some Player.O ↔ isLine s.board (-1)) ∧
  (s.winner = none ↔ (¬ isLine s.board 1 ∧ ¬ isLine s.board (-1))) ∧
  ¬ (isLine s.board 1 ∧ isLine s.board (-1)) ∧
  s.current_player =
    (if s.game_over then lastMover s.board else nextMover s.board)

instance (s : TicTacToe) : Decidable (StateInv s) := by
  unfold StateInv; infer_instance

/-- The empty starting state satisfies the invariant. -/
lemma stateInv_init : StateInv TicTacToe.init := by decide

/-- A sum of three cells drawn from {0, 1, -1} has absolute value 3 exactly
when the three cells are all 1 or all -1. -/
lemma sum3_natAbs (x y z : Int)
    (hx : x = 0 ∨ x = 1 ∨ x = -1) (hy : y = 0 ∨ y = 1 ∨ y = -1)
    (hz : z = 0 ∨ z = 1 ∨ z = -1) :
    (x + y + z).natAbs = 3 ↔
      ((x = 1 ∧ y = 1 ∧ z = 1) ∨ (x = -1 ∧ y = -1 ∧ z = -1)) := by
  rcases hx with hx | hx | hx <;> rcases hy with hy | hy | hy <;>
    rcases hz with hz | hz | hz <;> subst hx <;> subst hy <;> subst hz <;> decide

/-- Reading an untouched cell of an updated board. -/
lemma place_ne (b : Board) (r c : Fin 3) (v : Int) {i j : Fin 3}
    (h : ¬(i = r ∧ j = c)) : place b r c v i j = b i j := by
  unfold place; simp [h]

/-- Reading the written cell of an updated board. -/
lemma place_eq (b : Board) (r c : Fin 3) (v : Int) : place b r c v r c = v := by
  unfold place; simp

/-- A cell of the updated board that does not hold the written value is an
unchanged cell of the old board. -/
lemma place_val_ne {b : Board} {r c : Fin 3} {v w : Int} {i j : Fin 3}
    (h : place b r c v i j = w) (hw : w ≠ v) : b i j = w := by
  unfold place at h
  by_cases hij : i = r ∧ j = c
  · simp [hij] at h; exact absurd h.symm hw
  · simpa [hij] using h

/-- A line on the updated board either carries the written mark or was
already a line before the write. -/
lemma place_line {b : Board} {r c : Fin 3} {v w : Int}
    (h : isLine (place b r c v) w) : w = v ∨ isLine b w := by
  by_cases hw : w = v
  · exact Or.inl hw
  · right
    rcases h with ⟨r', h1, h2, h3⟩ | ⟨c', h1, h2, h3⟩ | ⟨h1, h2, h3⟩ | ⟨h1, h2, h3⟩
    · exact Or.inl ⟨r', place_val_ne h1 hw, place_val_ne h2 hw, place_val_ne h3 hw⟩
    · exact Or.inr (Or.inl ⟨c', place_val_ne h1 hw, place_val_ne h2 hw, place_val_ne h3 hw⟩)
    · exact Or.inr (Or.inr (Or.inl ⟨place_val_ne h1 hw, place_val_ne h2 hw, place_val_ne h3 hw⟩))
    · exact Or.inr (Or.inr (Or.inr ⟨place_val_ne h1 hw, place_val_ne h2 hw, place_val_ne h3 hw⟩))

/-- Cell validity is preserved by writing a mark. -/
lemma cellsValid_place {b : Board} (hb : cellsValid b) {r c : Fin 3} {v : Int}
    (hv : v = 1 ∨ v = -1) : cellsValid (place b r c v) := by
  intro i j
  by_cases hij : i = r ∧ j = c
  · rcases hij with ⟨hi, hj⟩; subst hi; subst hj
    rw [place_eq]
    rcases hv with hv | hv <;> simp [hv]
  · rw [place_ne _ _ _ _ hij]; exact hb i j

/-- Writing mark `v` on an empty cell raises the count of `v` by one and
leaves counts of other nonzero values unchanged. -/
lemma countV_place {b : Board} {r c : Fin 3} {v : Int} (h0 : b r c = 0)
    (w : Int) (hw : w ≠ 0) :
    countV (place b r c v) w = countV b w + (if v = w then 1 else 0) := by
  unfold countV
  by_cases hvw : v = w
  · subst hvw
    have hnot : (r, c) ∉ (Finset.univ : Finset (Fin 3 × Fin 3)).filter
        (fun q => b q.1 q.2 = v) := by
      simp only [Finset.mem_filter, Finset.mem_univ, true_and]
      show ¬ (b r c = v)
      rw [h0]
      exact fun h => hw h.symm
    have hset : ((Finset.univ : Finset (Fin 3 × Fin 3)).filter
        (fun q => place b r c v q.1 q.2 = v)) =
        insert (r, c) ((Finset.univ : Finset (Fin 3 × Fin 3)).filter
          (fun q => b q.1 q.2 = v)) := by
      ext q
      simp only [Finset.mem_filter, Finset.mem_univ, true_and, Finset.mem_insert]
      constructor
      · intro hq
        by_cases hqrc : q.1 = r ∧ q.2 = c
        · left; exact Prod.ext hqrc.1 hqrc.2
        · right; rw [place_ne _ _ _ _ hqrc] at hq; exact hq
      · rintro (hq | hq)
        · subst hq; simpa using place_eq b r c v
        · by_cases hqrc : q.1 = r ∧ q.2 = c
          · rcases hqrc with ⟨h1, h2⟩
            rw [h1, h2] at hq
            rw [h0] at hq
            exact absurd hq.symm hw
          · rw [place_ne _ _ _ _ hqrc]; exact hq
    rw [hset, Finset.card_insert_of_not_mem hnot]
    simp
  · have hset : ((Finset.univ : Finset (Fin 3 × Fin 3)).filter
        (fun q => place b r c v q.1 q.2 = w)) =
        ((Finset.univ : Finset (Fin 3 × Fin 3)).filter
          (fun q => b q.1 q.2 = w)) := by
      ext q
      simp only [Finset.mem_filter, Finset.mem_univ, true_and]
      by_cases hqrc : q.1 = r ∧ q.2 = c
      · rcases hqrc with ⟨h1, h2⟩
        rw [h1, h2, place_eq, h0]
        constructor
        · intro hv; exact absurd hv hvw
        · intro hv; exact absurd hv.symm hw
      · rw [place_ne _ _ _ _ hqrc]
    rw [hset]
    simp [hvw]

/-- Membership in the valid-move list is emptiness of the addressed cell. -/
lemma mem_boardValidMoves (b : Board) (m : Int × Int) :
    m ∈ boardValidMoves b ↔
      ∃ r c : Fin 3, m = ((r.val : Int), (c.val : Int)) ∧ b r c = 0 := by
  unfold boardValidMoves
  rw [List.mem_flatMap]
  constructor
  · rintro ⟨rN, hrN, hm⟩
    rw [List.mem_range] at hrN
    rw [List.mem_filterMap] at hm
    obtain ⟨cN, hcN, hcond⟩ := hm
    rw [List.mem_range] at hcN
    by_cases h0 : b (idxN rN) (idxN cN) = 0
    · rw [if_pos h0] at hcond
      obtain rfl := Option.some.inj hcond
      refine ⟨idxN rN, idxN cN, ?_, h0⟩
      have hr : (idxN rN).val = rN := Nat.mod_eq_of_lt hrN
      have hc : (idxN cN).val = cN := Nat.mod_eq_of_lt hcN
      rw [hr, hc]
    · rw [if_neg h0] at hcond; cases hcond
  · rintro ⟨r, c, rfl, h0⟩
    refine ⟨r.val, List.mem_range.mpr r.isLt, ?_⟩
    rw [List.mem_filterMap]
    refine ⟨c.val, List.mem_range.mpr c.isLt, ?_⟩
    have hr : idxN r.val = r := Fin.ext (Nat.mod_eq_of_lt r.isLt)
    have hc : idxN c.val = c := Fin.ext (Nat.mod_eq_of_lt c.isLt)
    rw [hr, hc, if_pos h0]

/-- The valid-move list is empty exactly when the board is full. -/
lemma boardValidMoves_nil_iff (b : Board) : boardValidMoves b = [] ↔ fullB b := by
  rw [List.eq_nil_iff_forall_not_mem]
  constructor
  · intro h i j h0
    exact h _ ((mem_boardValidMoves b _).2 ⟨i, j, rfl, h0⟩)
  · intro hf m hm
    obtain ⟨r, c, _, h0⟩ := (mem_boardValidMoves b m).1 hm
    exact hf r c h0

/-- Row-sum test of `_check_game_over` detects exactly a full row of one
mark, on boards with valid cells. -/
lemma rowSum_abs3 {b : Board} (hb : cellsValid b) (r : Fin 3) :
    (rowSum b r).natAbs = 3 ↔
      ((b r 0 = 1 ∧ b r 1 = 1 ∧ b r 2 = 1) ∨
        (b r 0 = -1 ∧ b r 1 = -1 ∧ b r 2 = -1)) :=
  sum3_natAbs _ _ _ (hb r 0) (hb r 1) (hb r 2)

/-- Column-sum test analogue of `rowSum_abs3`. -/
lemma colSum_abs3 {b : Board} (hb : cellsValid b) (c : Fin 3) :
    (colSum b c).natAbs = 3 ↔
      ((b 0 c = 1 ∧ b 1 c = 1 ∧ b 2 c = 1) ∨
        (b 0 c = -1 ∧ b 1 c = -1 ∧ b 2 c = -1)) :=
  sum3_natAbs _ _ _ (hb 0 c) (hb 1 c) (hb 2 c)

/-- Main-diagonal test analogue of `rowSum_abs3`. -/
lemma diagSum_abs3 {b : Board} (hb : cellsValid b) :
    (diagSum b).natAbs = 3 ↔
      ((b 0 0 = 1 ∧ b 1 1 = 1 ∧ b 2 2 = 1) ∨
        (b 0 0 = -1 ∧ b 1 1 = -1 ∧ b 2 2 = -1)) :=
  sum3_natAbs _ _ _ (hb 0 0) (hb 1 1) (hb 2 2)

/-- Anti-diagonal test analogue of `rowSum_abs3`. -/
lemma antiSum_abs3 {b : Board} (hb : cellsValid b) :
    (antiSum b).natAbs = 3 ↔
      ((b 0 2 = 1 ∧ b 1 1 = 1 ∧ b 2 0 = 1) ∨
        (b 0 2 = -1 ∧ b 1 1 = -1 ∧ b 2 0 = -1)) :=
  sum3_natAbs _ _ _ (hb 0 2) (hb 1 1) (hb 2 0)

/-- When X has a line and O does not, `_check_game_over` reports an X win
(whichever of its ordered tests fires first). -/
lemma cgo_lineX {b : Board} (hb : cellsValid b) (h1 : isLine b 1)
    (h2 : ¬ isLine b (-1)) :
    check_game_over b = (true, some Player.X, some 1) := by
  unfold check_game_over
  by_cases c1 : (rowSum b 0).natAbs = 3
  · rcases (rowSum_abs3 hb 0).1 c1 with h | h
    · rw [if_pos c1]; simp [h.1]
    · exact absurd (Or.inl ⟨0, h⟩) h2
  rw [if_neg c1]
  by_cases c2 : (rowSum b 1).natAbs = 3
  · rcases (rowSum_abs3 hb 1).1 c2 with h | h
    · rw [if_pos c2]; simp [h.1]
    · exact absurd (Or.inl ⟨1, h⟩) h2
  rw [if_neg c2]
  by_cases c3 : (rowSum b 2).natAbs = 3
  · rcases (rowSum_abs3 hb 2).1 c3 with h | h
    · rw [if_pos c3]; simp [h.1]
    · exact absurd (Or.inl ⟨2, h⟩) h2
  rw [if_neg c3]
  by_cases c4 : (colSum b 0).natAbs = 3
  · rcases (colSum_abs3 hb 0).1 c4 with h | h
    · rw [if_pos c4]; simp [h.1]
    · exact absurd (Or.inr (Or.inl ⟨0, h⟩)) h2
  rw [if_neg c4]
  by_cases c5 : (colSum b 1).natAbs = 3
  · rcases (colSum_abs3 hb 1).1 c5 with h | h
    · rw [if_pos c5]; simp [h.1]
    · exact absurd (Or.inr (Or.inl ⟨1, h⟩)) h2
  rw [if_neg c5]
  by_cases c6 : (colSum b 2).natAbs = 3
  · rcases (colSum_abs3 hb 2).1 c6 with h | h
    · rw [if_pos c6]; simp [h.1]
    · exact absurd (Or.inr (Or.inl ⟨2, h⟩)) h2
  rw [if_neg c6]
  by_cases c7 : (diagSum b).natAbs = 3
  · rcases (diagSum_abs3 hb).1 c7 with h | h
    · have hd : diagSum b = 3 := by unfold diagSum; rw [h.1, h.2.1, h.2.2]; norm_num
      rw [if_pos c7]; simp [hd]
    · exact absurd (Or.inr (Or.inr (Or.inl h))) h2
  rw [if_neg c7]
  by_cases c8 : (antiSum b).natAbs = 3
  · rcases (antiSum_abs3 hb).1 c8 with h | h
    · have hd : antiSum b = 3 := by unfold antiSum; rw [h.1, h.2.1, h.2.2]; norm_num
      rw [if_pos c8]; simp [hd]
    · exact absurd (Or.inr (Or.inr (Or.inr h))) h2
  exfalso
  rcases h1 with ⟨r, h⟩ | ⟨c, h⟩ | h | h
  · fin_cases r
    · exact c1 ((rowSum_abs3 hb 0).2 (Or.inl h))
    · exact c2 ((rowSum_abs3 hb 1).2 (Or.inl h))
    · exact c3 ((rowSum_abs3 hb 2).2 (Or.inl h))
  · fin_cases c
    · exact c4 ((colSum_abs3 hb 0).2 (Or.inl h))
    · exact c5 ((colSum_abs3 hb 1).2 (Or.inl h))
    · exact c6 ((colSum_abs3 hb 2).2 (Or.inl h))
  · exact c7 ((diagSum_abs3 hb).2 (Or.inl h))
  · exact c8 ((antiSum_abs3 hb).2 (Or.inl h))

/-- When O has a line and X does not, `_check_game_over` reports an O win. -/
lemma cgo_lineO {b : Board} (hb : cellsValid b) (h1 : isLine b (-1))
    (h2 : ¬ isLine b 1) :
    check_game_over b = (true, some Player.O, some (-1)) := by
  unfold check_game_over
  by_cases c1 : (rowSum b 0).natAbs = 3
  · rcases (rowSum_abs3 hb 0).1 c1 with h | h
    · exact absurd (Or.inl ⟨0, h⟩) h2
    · rw [if_pos c1]; simp [h.1]
  rw [if_neg c1]
  by_cases c2 : (rowSum b 1).natAbs = 3
  · rcases (rowSum_abs3 hb 1).1 c2 with h | h
    · exact absurd (Or.inl ⟨1, h⟩) h2
    · rw [if_pos c2]; simp [h.1]
  rw [if_neg c2]
  by_cases c3 : (rowSum b 2).natAbs = 3
  · rcases (rowSum_abs3 hb 2).1 c3 with h | h
    · exact absurd (Or.inl ⟨2, h⟩) h2
    · rw [if_pos c3]; simp [h.1]
  rw [if_neg c3]
  by_cases c4 : (colSum b 0).natAbs = 3
  · rcases (colSum_abs3 hb 0).1 c4 with h | h
    · exact absurd (Or.inr (Or.inl ⟨0, h⟩)) h2
    · rw [if_pos c4]; simp [h.1]
  rw [if_neg c4]
  by_cases c5 : (colSum b 1).natAbs = 3
  · rcases (colSum_abs3 hb 1).1 c5 with h | h
    · exact absurd (Or.inr (Or.inl ⟨1, h⟩)) h2
    · rw [if_pos c5]; simp [h.1]
  rw [if_neg c5]
  by_cases c6 : (colSum b 2).natAbs = 3
  · rcases (colSum_abs3 hb 2).1 c6 with h | h
    · exact absurd (Or.inr (Or.inl ⟨2, h⟩)) h2
    · rw [if_pos c6]; simp [h.1]
  rw [if_neg c6]
  by_cases c7 : (diagSum b).natAbs = 3
  · rcases (diagSum_abs3 hb).1 c7 with h | h
    · exact absurd (Or.inr (Or.inr (Or.inl h))) h2
    · have hd : diagSum b = -3 := by unfold diagSum; rw [h.1, h.2.1, h.2.2]; norm_num
      rw [if_pos c7]; simp [hd]
  rw [if_neg c7]
  by_cases c8 : (antiSum b).natAbs = 3
  · rcases (antiSum_abs3 hb).1 c8 with h | h
    · exact absurd (Or.inr (Or.inr (Or.inr h))) h2
    · have hd : antiSum b = -3 := by unfold antiSum; rw [h.1, h.2.1, h.2.2]; norm_num
      rw [if_pos c8]; simp [hd]
  exfalso
  rcases h1 with ⟨r, h⟩ | ⟨c, h⟩ | h | h
  · fin_cases r
    · exact c1 ((rowSum_abs3 hb 0).2 (Or.inr h))
    · exact c2 ((rowSum_abs3 hb 1).2 (Or.inr h))
    · exact c3 ((rowSum_abs3 hb 2).2 (Or.inr h))
  · fin_cases c
    · exact c4 ((colSum_abs3 hb 0).2 (Or.inr h))
    · exact c5 ((colSum_abs3 hb 1).2 (Or.inr h))
    · exact c6 ((colSum_abs3 hb 2).2 (Or.inr h))
  · exact c7 ((diagSum_abs3 hb).2 (Or.inr h))
  · exact c8 ((antiSum_abs3 hb).2 (Or.inr h))

/-- With no line on the board, `_check_game_over` reaches its draw test. -/
lemma cgo_noline {b : Board} (hb : cellsValid b) (h1 : ¬ isLine b 1)
    (h2 : ¬ isLine b (-1)) :
    check_game_over b =
      (if boardValidMoves b = [] then (true, none, some 0)
        else (false, none, none)) := by
  have n1 : ¬(rowSum b 0).natAbs = 3 := fun hc => by
    rcases (rowSum_abs3 hb 0).1 hc with h | h
    exacts [h1 (Or.inl ⟨0, h⟩), h2 (Or.inl ⟨0, h⟩)]
  have n2 : ¬(rowSum b 1).natAbs = 3 := fun hc => by
    rcases (rowSum_abs3 hb 1).1 hc with h | h
    exacts [h1 (Or.inl ⟨1, h⟩), h2 (Or.inl ⟨1, h⟩)]
  have n3 : ¬(rowSum b 2).natAbs = 3 := fun hc => by
    rcases (rowSum_abs3 hb 2).1 hc with h | h
    exacts [h1 (Or.inl ⟨2, h⟩), h2 (Or.inl ⟨2, h⟩)]
  have n4 : ¬(colSum b 0).natAbs = 3 := fun hc => by
    rcases (colSum_abs3 hb 0).1 hc with h | h
    exacts [h1 (Or.inr (Or.inl ⟨0, h⟩)), h2 (Or.inr (Or.inl ⟨0, h⟩))]
  have n5 : ¬(colSum b 1).natAbs = 3 := fun hc => by
    rcases (colSum_abs3 hb 1).1 hc with h | h
    exacts [h1 (Or.inr (Or.inl ⟨1, h⟩)), h2 (Or.inr (Or.inl ⟨1, h⟩))]
  have n6 : ¬(colSum b 2).natAbs = 3 := fun hc => by
    rcases (colSum_abs3 hb 2).1 hc with h | h
    exacts [h1 (Or.inr (Or.inl ⟨2, h⟩)), h2 (Or.inr (Or.inl ⟨2, h⟩))]
  have n7 : ¬(diagSum b).natAbs = 3 := fun hc => by
    rcases (diagSum_abs3 hb).1 hc with h | h
    exacts [h1 (Or.inr (Or.inr (Or.inl h))), h2 (Or.inr (Or.inr (Or.inl h)))]
  have n8 : ¬(antiSum b).natAbs = 3 := fun hc => by
    rcases (antiSum_abs3 hb).1 hc with h | h
    exacts [h1 (Or.inr (Or.inr (Or.inr h))), h2 (Or.inr (Or.inr (Or.inr h)))]
  unfold check_game_over
  rw [if_neg n1, if_neg n2, if_neg n3, if_neg n4, if_neg n5, if_neg n6,
    if_neg n7, if_neg n8]

/-- Unpacking a successful `is_valid_move` test. -/
lemma is_valid_move_elim {s : TicTacToe} {row col : Int}
    (h : is_valid_move s row col = true) :
    s.game_over = false ∧ (0 ≤ row ∧ row < 3 ∧ 0 ≤ col ∧ col < 3) ∧
      s.board (idx row) (idx col) = 0 := by
  unfold is_valid_move at h
  by_cases hg : s.game_over
  · rw [if_pos hg] at h; cases h
  · rw [if_neg hg] at h
    by_cases hb : ¬(0 ≤ row ∧ row < 3 ∧ 0 ≤ col ∧ col < 3)
    · rw [if_pos hb] at h; cases h
    · rw [if_neg hb] at h
      exact ⟨Bool.not_eq_true _ ▸ by simpa using hg, not_not.1 hb,
        of_decide_eq_true h⟩

/-- On a live board the invariant determines the mover from the counts. -/
lemma stateInv_current_value {s : TicTacToe} (hs : StateInv s)
    (hg : s.game_over = false) :
    (s.current_player = Player.X ∧ countV s.board 1 = countV s.board (-1)) ∨
    (s.current_player = Player.O ∧
      countV s.board 1 = countV s.board (-1) + 1) := by
  obtain ⟨-, hcnt, -, -, -, -, -, hcp⟩ := hs
  rw [hg] at hcp
  simp only [Bool.false_eq_true, if_false] at hcp
  unfold nextMover at hcp
  by_cases he : countV s.board 1 = countV s.board (-1)
  · exact Or.inl ⟨by rw [hcp, if_pos he], he⟩
  · refine Or.inr ⟨by rw [hcp, if_neg he], ?_⟩
    rcases hcnt with h | h
    · exact absurd h he
    · exact h

/-- A live state satisfying the invariant has no line and a free cell. -/
lemma stateInv_live {s : TicTacToe} (hs : StateInv s)
    (hg : s.game_over = false) :
    ¬ isLine s.board 1 ∧ ¬ isLine s.board (-1) ∧ ¬ fullB s.board := by
  have hterm : ¬ terminalB s.board := by
    intro ht
    have h := (hs.2.2.1).2 ht
    rw [hg] at h; cases h
  exact ⟨fun h => hterm (Or.inl h), fun h => hterm (Or.inr (Or.inl h)),
    fun h => hterm (Or.inr (Or.inr h))⟩

/-- Core preservation argument: placing the mover's mark on a free cell of
a live invariant-satisfying state and running `_check_game_over` yields a
state that satisfies the invariant again. -/
lemma step_inv_core (s : TicTacToe) (r c : Fin 3) (hs : StateInv s)
    (hg : s.game_over = false) (hempty : s.board r c = 0) :
    StateInv
      { board := place s.board r c s.current_player.value
        current_player :=
          if (check_game_over (place s.board r c s.current_player.value)).1
          then s.current_player else otherPlayer s.current_player
        game_over := (check_game_over (place s.board r c s.current_player.value)).1
        winner := (check_game_over (place s.board r c s.current_player.value)).2.1 } := by
  obtain ⟨hl1, hl2, hnf⟩ := stateInv_live hs hg
  have hbv := hs.1
  rcases stateInv_current_value hs hg with ⟨hp, hceq⟩ | ⟨hp, hceq⟩
  · -- X to move: the placed mark is 1
    rw [hp]
    simp only [Player.value]
    have hbB : cellsValid (place s.board r c 1) :=
      cellsValid_place hbv (Or.inl rfl)
    have hcx : countV (place s.board r c 1) 1 = countV s.board 1 + 1 := by
      have h := countV_place (v := 1) hempty 1 one_ne_zero
      simpa using h
    have hco : countV (place s.board r c 1) (-1) = countV s.board (-1) := by
      have h := countV_place (v := 1) hempty (-1) (by norm_num)
      simpa using h
    have hnl2 : ¬ isLine (place s.board r c 1) (-1) := by
      intro h
      rcases place_line h with h' | h'
      · norm_num at h'
      · exact hl2 h'
    by_cases hx : isLine (place s.board r c 1) 1
    · have hres := cgo_lineX hbB hx hnl2
      simp only [hres]
      refine ⟨hbB, ?_, ?_, ?_, ?_, ?_, ?_, ?_⟩
      · right; rw [hcx, hco, hceq]
      · exact ⟨fun _ => Or.inl hx, fun _ => rfl⟩
      · exact ⟨fun _ => hx, fun _ => rfl⟩
      · exact iff_of_false (by simp) hnl2
      · exact iff_of_false (by simp) (fun h => h.1 hx)
      · exact fun h => hnl2 h.2
      · have hlm : lastMover (place s.board r c 1) = Player.X := by
          unfold lastMover
          rw [hcx, hco, hceq]
          exact if_pos rfl
        simp [hlm]
    · have hres := cgo_noline hbB hx hnl2
      by_cases hf : boardValidMoves (place s.board r c 1) = []
      · rw [if_pos hf] at hres
        simp only [hres]
        have hfull : fullB (place s.board r c 1) :=
          (boardValidMoves_nil_iff _).1 hf
        refine ⟨hbB, ?_, ?_, ?_, ?_, ?_, ?_, ?_⟩
        · right; rw [hcx, hco, hceq]
        · exact ⟨fun _ => Or.inr (Or.inr hfull), fun _ => rfl⟩
        · exact iff_of_false (by simp) hx
        · exact iff_of_false (by simp) hnl2
        · exact ⟨fun _ => ⟨hx, hnl2⟩, fun _ => rfl⟩
        · exact fun h => hnl2 h.2
        · have hlm : lastMover (place s.board r c 1) = Player.X := by
            unfold lastMover
            rw [hcx, hco, hceq]
            exact if_pos rfl
          simp [hlm]
      · rw [if_neg hf] at hres
        simp only [hres]
        have hnfull : ¬ fullB (place s.board r c 1) :=
          fun h => hf ((boardValidMoves_nil_iff _).2 h)
        refine ⟨hbB, ?_, ?_, ?_, ?_, ?_, ?_, ?_⟩
        · right; rw [hcx, hco, hceq]
        · constructor
          · intro h; cases h
          · rintro (h | h | h)
            exacts [absurd h hx, absurd h hnl2, absurd h hnfull]
        · exact iff_of_false (by simp) hx
        · exact iff_of_false (by simp) hnl2
        · exact ⟨fun _ => ⟨hx, hnl2⟩, fun _ => rfl⟩
        · exact fun h => hnl2 h.2
        · have hnm : nextMover (place s.board r c 1) = Player.O := by
            unfold nextMover
            rw [hcx, hco, hceq]
            exact if_neg (by omega)
          simp [hnm, otherPlayer]
  · -- O to move: the placed mark is -1
    rw [hp]
    simp only [Player.value]
    have hbB : cellsValid (place s.board r c (-1)) :=
      cellsValid_place hbv (Or.inr rfl)
    have hcx : countV (place s.board r c (-1)) 1 = countV s.board 1 := by
      have h := countV_place (v := -1) hempty 1 one_ne_zero
      simpa using h
    have hco : countV (place s.board r c (-1)) (-1) = countV s.board (-1) + 1 := by
      have h := countV_place (v := -1) hempty (-1) (by norm_num)
      simpa using h
    have hnl1 : ¬ isLine (place s.board r c (-1)) 1 := by
      intro h
      rcases place_line h with h' | h'
      · norm_num at h'
      · exact hl1 h'
    by_cases ho : isLine (place s.board r c (-1)) (-1)
    · have hres := cgo_lineO hbB ho hnl1
      simp only [hres]
      refine ⟨hbB, ?_, ?_, ?_, ?_, ?_, ?_, ?_⟩
      · left; rw [hcx, hco, hceq]
      · exact ⟨fun _ => Or.inr (Or.inl ho), fun _ => rfl⟩
      · exact iff_of_false (by simp) hnl1
      · exact ⟨fun _ => ho, fun _ => rfl⟩
      · exact iff_of_false (by simp) (fun h => h.2 ho)
      · exact fun h => hnl1 h.1
      · have hlm : lastMover (place s.board r c (-1)) = Player.O := by
          unfold lastMover
          rw [hcx, hco, hceq]
          exact if_neg (by omega)
        simp [hlm]
    · have hres := cgo_noline hbB hnl1 ho
      by_cases hf : boardValidMoves (place s.board r c (-1)) = []
      · rw [if_pos hf] at hres
        simp only [hres]
        have hfull : fullB (place s.board r c (-1)) :=
          (boardValidMoves_nil_iff _).1 hf
        refine ⟨hbB, ?_, ?_, ?_, ?_, ?_, ?_, ?_⟩
        · left; rw [hcx, hco, hceq]
        · exact ⟨fun _ => Or.inr (Or.inr hfull), fun _ => rfl⟩
        · exact iff_of_false (by simp) hnl1
        · exact iff_of_false (by simp) ho
        · exact ⟨fun _ => ⟨hnl1, ho⟩, fun _ => rfl⟩
        · exact fun h => ho h.2
        · have hlm : lastMover (place s.board r c (-1)) = Player.O := by
            unfold lastMover
            rw [hcx, hco, hceq]
            exact if_neg (by omega)
          simp [hlm]
      · rw [if_neg hf] at hres
        simp only [hres]
        have hnfull : ¬ fullB (place s.board r c (-1)) :=
          fun h => hf ((boardValidMoves_nil_iff _).2 h)
        refine ⟨hbB, ?_, ?_, ?_, ?_, ?_, ?_, ?_⟩
        · left; rw [hcx, hco, hceq]
        · constructor
          · intro h; cases h
          · rintro (h | h | h)
            exacts [absurd h hnl1, absurd h ho, absurd h hnfull]
        · exact iff_of_false (by simp) hnl1
        · exact iff_of_false (by simp) ho
        · exact ⟨fun _ => ⟨hnl1, ho⟩, fun _ => rfl⟩
        · exact fun h => ho h.2
        · have hnm : nextMover (place s.board r c (-1)) = Player.X := by
            unfold nextMover
            rw [hcx, hco, hceq]
            exact if_pos rfl
          simp [hnm, otherPlayer]

/-- A legal move preserves the state invariant. -/
lemma stateInv_step {s : TicTacToe} {row col : Int} (hs : StateInv s)
    (hv : is_valid_move s row col = true) :
    StateInv (make_move s row col).1 := by
  obtain ⟨hg, -, hempty⟩ := is_valid_move_elim hv
  have h := step_inv_core s (idx row) (idx col) hs hg hempty
  unfold make_move
  rw [if_pos hv]
  exact h

/-- Every reachable state satisfies the invariant. -/
lemma stateInv_reachable {s : TicTacToe} (h : Reachable s) : StateInv s := by
  induction h with
  | init => exact stateInv_init
  | step row col hr hv ih => exact stateInv_step ih hv

/-- Two invariant-satisfying states with the same grid are equal: the grid
determines turn, termination and winner.  This matches the source storing
states under a grid-only hash. -/
lemma stateInv_board_inj {s t : TicTacToe} (hs : StateInv s) (ht : StateInv t)
    (hb : s.board = t.board) : s = t := by
  obtain ⟨-, -, hs3, hs4, hs5, hs6, -, hs8⟩ := hs
  obtain ⟨-, -, ht3, ht4, ht5, ht6, -, ht8⟩ := ht
  rw [hb] at hs3 hs4 hs5 hs6 hs8
  have hg : s.game_over = t.game_over := by
    by_cases h : terminalB t.board
    · rw [hs3.mpr h, ht3.mpr h]
    · have h1 : s.game_over ≠ true := fun hh => h (hs3.mp hh)
      have h2 : t.game_over ≠ true := fun hh => h (ht3.mp hh)
      simp only [Bool.not_eq_true] at h1 h2
      rw [h1, h2]
  have hw : s.winner = t.winner := by
    by_cases h1 : isLine t.board 1
    · rw [hs4.mpr h1, ht4.mpr h1]
    · by_cases h2 : isLine t.board (-1)
      · rw [hs5.mpr h2, ht5.mpr h2]
      · rw [hs6.mpr ⟨h1, h2⟩, ht6.mpr ⟨h1, h2⟩]
  have hc : s.current_player = t.current_player := by
    rw [hs8, ht8, hg]
  cases s; cases t
  simp_all

/-- A legal move's coordinate pair occurs in the valid-move list. -/
lemma valid_mem_gvm {s : TicTacToe} {row col : Int}
    (hv : is_valid_move s row col = true) :
    (row, col) ∈ get_valid_moves s := by
  obtain ⟨-, ⟨h0r, h3r, h0c, h3c⟩, hempty⟩ := is_valid_move_elim hv
  unfold get_valid_moves
  rw [mem_boardValidMoves]
  refine ⟨idx row, idx col, ?_, hempty⟩
  have hr : (((idx row).val : Nat) : Int) = row := by
    show ((row.toNat % 3 : Nat) : Int) = row
    omega
  have hc : (((idx col).val : Nat) : Int) = col := by
    show ((col.toNat % 3 : Nat) : Int) = col
    omega
  rw [Prod.ext_iff]
  exact ⟨hr.symm, hc.symm⟩

/-- Elements of the successor list are reachable whenever the parent is:
a rejected move (terminal parent) returns the parent unchanged. -/
lemma successors_reachable {s : TicTacToe} (hr : Reachable s) {u : TicTacToe}
    (hu : u ∈ successors s) : Reachable u := by
  unfold successors at hu
  rw [List.mem_map] at hu
  obtain ⟨m, hm, rfl⟩ := hu
  by_cases hv : is_valid_move s m.1 m.2 = true
  · exact Reachable.step m.1 m.2 hr hv
  · have heq : make_move s m.1 m.2 = (s, false, none) := by
      unfold make_move
      rw [if_neg (by simpa using hv)]
    rw [heq]
    exact hr

/-- The classification `match` never hits its `raise` arm on a reachable
state (the winner field is never `Player.EMPTY`). -/
lemma classify_reachable {s : TicTacToe} (h : Reachable s) :
    ∃ v : ℚ, classify s.winner = some v := by
  have hi := stateInv_reachable h
  obtain ⟨-, -, -, h4, h5, h6, -, -⟩ := hi
  by_cases h1 : isLine s.board 1
  · exact ⟨1, by rw [h4.mpr h1]; rfl⟩
  · by_cases h2 : isLine s.board (-1)
    · exact ⟨-1, by rw [h5.mpr h2]; rfl⟩
    · exact ⟨0, by rw [h6.mpr ⟨h1, h2⟩]; rfl⟩

/-- All nine cells in the scan order of `get_valid_moves`: rows outer,
columns inner. -/
def allCellsRowMajor : List (Int × Int) :=
  (List.range 3).flatMap
    (fun r : Nat => (List.range 3).map (fun c : Nat => ((r : Int), (c : Int))))

/-- Modelled from the spec: one coordinate pair per empty cell, scanned in
row-major order (spec-side reference rendering of the legal-move list). -/
def rowMajorEmptyCells (b : Board) : List (Int × Int) :=
  allCellsRowMajor.filter (fun m => decide (b (idx m.1) (idx m.2) = 0))

/-- The scan order written out. -/
lemma allCells_explicit :
    allCellsRowMajor =
      [(0, 0), (0, 1), (0, 2), (1, 0), (1, 1), (1, 2), (2, 0), (2, 1), (2, 2)] := by
  decide

/-- A `filterMap` whose function is a guarded `some` is a filter-then-map. -/
lemma filterMap_ite {α β : Type} (p : α → Prop) [DecidablePred p] (g : α → β)
    (l : List α) :
    l.filterMap (fun a => if p a then some (g a) else none) =
      (l.filter (fun a => decide (p a))).map g := by
  induction l with
  | nil => rfl
  | cons a l ih =>
    by_cases h : p a
    · simp [List.filterMap_cons, List.filter_cons, h, ih]
    · simp [List.filterMap_cons, List.filter_cons, h, ih]

/-- Filtering distributes over `flatMap`. -/
lemma filter_flatMap {α β : Type} (l : List α) (g : α → List β) (p : β → Bool) :
    (l.flatMap g).filter p = l.flatMap (fun a => (g a).filter p) := by
  induction l with
  | nil => rfl
  | cons a l ih => simp [List.flatMap_cons, List.filter_append, ih]

/-- Filtering a mapped list filters the preimages. -/
lemma filter_of_map {α β : Type} (f : α → β) (p : β → Bool) (l : List α) :
    (l.map f).filter p = (l.filter (fun a => p (f a))).map f := by
  induction l with
  | nil => rfl
  | cons a l ih => by_cases h : p (f a) <;> simp [h, ih]

/-- The produced valid-move list is exactly the row-major scan restricted
to empty cells. -/
lemma boardValidMoves_eq (b : Board) :
    boardValidMoves b = rowMajorEmptyCells b := by
  unfold boardValidMoves rowMajorEmptyCells allCellsRowMajor
  rw [filter_flatMap]
  congr 1
  funext r
  rw [filterMap_ite (fun c => b (idxN r) (idxN c) = 0)
    (fun c => ((r : Int), (c : Int))), filter_of_map]
  rfl

/-- At most nine valid moves exist. -/
lemma boardValidMoves_length (b : Board) : (boardValidMoves b).length ≤ 9 := by
  rw [boardValidMoves_eq]
  unfold rowMajorEmptyCells
  refine le_trans (List.length_filter_le _ _) ?_
  rw [allCells_explicit]
  decide

/-- Invariant of the enumeration loop configuration (worklist, table):
every worklist state is reachable; every table key is a reachable board;
every table key's successors are covered by the table or the worklist; the
empty board is covered; and every stored value is the classified outcome
of the key's (unique) reachable state. -/
def GoodCfg (wl : List TicTacToe) (t : VTable) : Prop :=
  (∀ s ∈ wl, Reachable s) ∧
  (∀ b : Board, t.mem b = true → BoardReachable b) ∧
  (∀ b : Board, t.mem b = true → ∀ s : TicTacToe, Reachable s → s.board = b →
    ∀ u ∈ successors s, t.mem u.board = true ∨ ∃ w ∈ wl, w.board = u.board) ∧
  (t.mem TicTacToe.init.board = true ∨
    ∃ w ∈ wl, w.board = TicTacToe.init.board) ∧
  (∀ b : Board, t.mem b = true → ∀ s : TicTacToe, Reachable s → s.board = b →
    classify s.winner = some (t.val b))

/-- Skipping an already-tabled state preserves the invariant. -/
lemma goodCfg_skip {s : TicTacToe} {rest : List TicTacToe} {t : VTable}
    (h : GoodCfg (s :: rest) t) (hm : t.mem s.board = true) :
    GoodCfg rest t := by
  obtain ⟨hA, hB, hC, hD, hE⟩ := h
  refine ⟨fun u hu => hA u (List.mem_cons_of_mem _ hu), hB, ?_, ?_, hE⟩
  · intro b hb s' hs' hsb u hu
    rcases hC b hb s' hs' hsb u hu with hmem | ⟨w, hw, hwb⟩
    · exact Or.inl hmem
    · rcases List.mem_cons.mp hw with rfl | hw'
      · exact Or.inl (hwb ▸ hm)
      · exact Or.inr ⟨w, hw', hwb⟩
  · rcases hD with hmem | ⟨w, hw, hwb⟩
    · exact Or.inl hmem
    · rcases List.mem_cons.mp hw with rfl | hw'
      · exact Or.inl (hwb ▸ hm)
      · exact Or.inr ⟨w, hw', hwb⟩

/-- Visiting a fresh state (storing its value and pushing its successors)
preserves the invariant. -/
lemma goodCfg_visit {s : TicTacToe} {rest : List TicTacToe} {t : VTable}
    {v : ℚ} (h : GoodCfg (s :: rest) t) (hm : t.mem s.board = false)
    (hv : classify s.winner = some v) :
    GoodCfg (rest ++ successors s) (insertVal t s.board v) := by
  obtain ⟨hA, hB, hC, hD, hE⟩ := h
  have hsr : Reachable s := hA s (List.mem_cons_self s rest)
  have hmem_lift : ∀ b : Board, t.mem b = true →
      (insertVal t s.board v).mem b = true := by
    intro b hb
    unfold insertVal
    simp [hb]
  have hmem_self : (insertVal t s.board v).mem s.board = true := by
    unfold insertVal
    simp
  have hmem_elim : ∀ b : Board, (insertVal t s.board v).mem b = true →
      b = s.board ∨ t.mem b = true := by
    intro b hb
    unfold insertVal at hb
    rcases Bool.or_eq_true_iff.mp hb with h' | h'
    · exact Or.inl (of_decide_eq_true h')
    · exact Or.inr h'
  refine ⟨?_, ?_, ?_, ?_, ?_⟩
  · intro u hu
    rcases List.mem_append.mp hu with hu' | hu'
    · exact hA u (List.mem_cons_of_mem _ hu')
    · exact successors_reachable hsr hu'
  · intro b hb
    rcases hmem_elim b hb with rfl | h'
    · exact ⟨s, hsr, rfl⟩
    · exact hB b h'
  · intro b hb s' hs' hsb u hu
    rcases hmem_elim b hb with rfl | h'
    · have hss : s' = s :=
        stateInv_board_inj (stateInv_reachable hs') (stateInv_reachable hsr) hsb
      subst hss
      exact Or.inr ⟨u, List.mem_append.mpr (Or.inr hu), rfl⟩
    · rcases hC b h' s' hs' hsb u hu with hmem | ⟨w, hw, hwb⟩
      · exact Or.inl (hmem_lift _ hmem)
      · rcases List.mem_cons.mp hw with rfl | hw'
        · exact Or.inl (hwb ▸ hmem_self)
        · exact Or.inr ⟨w, List.mem_append.mpr (Or.inl hw'), hwb⟩
  · rcases hD with hmem | ⟨w, hw, hwb⟩
    · exact Or.inl (hmem_lift _ hmem)
    · rcases List.mem_cons.mp hw with rfl | hw'
      · exact Or.inl (hwb ▸ hmem_self)
      · exact Or.inr ⟨w, List.mem_append.mpr (Or.inl hw'), hwb⟩
  · intro b hb s' hs' hsb
    rcases hmem_elim b hb with rfl | h'
    · have hss : s' = s :=
        stateInv_board_inj (stateInv_reachable hs') (stateInv_reachable hsr) hsb
      subst hss
      have hval : (insertVal t s'.board v).val s'.board = v := by
        unfold insertVal
        simp
      rw [hval]
      exact hv
    · have hbs : b ≠ s.board := by
        intro he
        rw [he] at h'
        rw [h'] at hm
        cases hm
      have hval : (insertVal t s.board v).val b = t.val b := by
        unfold insertVal
        simp [hbs]
      rw [hval]
      exact hE b h' s' hs' hsb

/-- Projection of `insertVal` membership. -/
lemma insertVal_mem (t : VTable) (b : Board) (v : ℚ) (x : Board) :
    (insertVal t b v).mem x = (decide (x = b) || t.mem x) := rfl

/-- All boards whose cells are marks: the image of the 3^9 cell choices. -/
def validBoards : Finset Board :=
  Finset.image
    (fun f : Fin 3 → Fin 3 → Fin 3 => (fun i j => (f i j : Int) - 1 : Board))
    Finset.univ

/-- A board with valid cells lies in `validBoards`. -/
lemma mem_validBoards {b : Board} (hb : cellsValid b) : b ∈ validBoards := by
  unfold validBoards
  rw [Finset.mem_image]
  refine ⟨fun i j => if b i j = 1 then 2 else if b i j = -1 then 0 else 1,
    Finset.mem_univ _, ?_⟩
  funext i j
  rcases hb i j with h | h | h <;> simp [h]

/-- Number of valid boards not yet in the table: the decreasing part of the
loop measure. -/
def unvisited (t : VTable) : Nat :=
  (validBoards.filter (fun x => t.mem x = false)).card

/-- The measure part never exceeds 3^9. -/
lemma unvisited_le (t : VTable) : unvisited t ≤ 19683 := by
  unfold unvisited
  refine le_trans (Finset.card_filter_le _ _) ?_
  unfold validBoards
  refine le_trans Finset.card_image_le ?_
  rw [Finset.card_univ, Fintype.card_fun, Fintype.card_fun]
  norm_num

/-- Inserting a fresh valid board strictly shrinks the unvisited set. -/
lemma unvisited_insert {t : VTable} {b : Board} (hb : b ∈ validBoards)
    (hm : t.mem b = false) (v : ℚ) :
    unvisited (insertVal t b v) + 1 = unvisited t := by
  unfold unvisited
  have hset : validBoards.filter (fun x => (insertVal t b v).mem x = false) =
      (validBoards.filter (fun x => t.mem x = false)).erase b := by
    ext x
    simp only [Finset.mem_filter, Finset.mem_erase, insertVal_mem]
    constructor
    · rintro ⟨hx, hmem⟩
      rw [Bool.or_eq_false_iff] at hmem
      obtain ⟨h1, h2⟩ := hmem
      refine ⟨?_, hx, h2⟩
      intro he
      rw [he] at h1
      simp at h1
    · rintro ⟨hne, hx, hmem⟩
      refine ⟨hx, ?_⟩
      rw [Bool.or_eq_false_iff]
      exact ⟨by simp [hne], hmem⟩
  rw [hset]
  exact Finset.card_erase_add_one (Finset.mem_filter.mpr ⟨hb, hm⟩)

/-- Main loop lemma: with fuel at least the measure, the enumeration
drains its worklist and the final configuration satisfies the invariant. -/
lemma build_run : ∀ (fuel : Nat) (wl : List TicTacToe) (t : VTable),
    GoodCfg wl t → 10 * unvisited t + wl.length ≤ fuel →
    (build fuel wl t).1 = [] ∧
      GoodCfg (build fuel wl t).1 (build fuel wl t).2 := by
  intro fuel
  induction fuel with
  | zero =>
    intro wl t hg hm
    have hwl : wl = [] := List.length_eq_zero.mp (by omega)
    subst hwl
    exact ⟨rfl, hg⟩
  | succ fuel ih =>
    intro wl t hg hm
    match wl with
    | [] => exact ⟨rfl, hg⟩
    | s :: rest =>
      rw [List.length_cons] at hm
      by_cases hmem : t.mem s.board = true
      · have hstep : build (fuel + 1) (s :: rest) t = build fuel rest t := by
          show (if t.mem s.board then build fuel rest t else _) = _
          rw [if_pos hmem]
        rw [hstep]
        exact ih rest t (goodCfg_skip hg hmem) (by omega)
      · have hmem' : t.mem s.board = false := by simpa using hmem
        obtain ⟨v, hv⟩ :=
          classify_reachable (hg.1 s (List.mem_cons_self s rest))
        have hstep : build (fuel + 1) (s :: rest) t =
            build fuel (rest ++ successors s) (insertVal t s.board v) := by
          simp only [build]
          rw [if_neg hmem, hv]
        rw [hstep]
        have hcells : cellsValid s.board :=
          (stateInv_reachable (hg.1 s (List.mem_cons_self s rest))).1
        have hins := unvisited_insert (mem_validBoards hcells) hmem' v
        have hlen : (successors s).length ≤ 9 := by
          unfold successors get_valid_moves
          rw [List.length_map]
          exact boardValidMoves_length s.board
        refine ih _ _ (goodCfg_visit hg hmem' hv) ?_
        rw [List.length_append]
        omega

attribute [irreducible] build

/-- The concrete run of `ValueFunction.__init__` drains its worklist and
ends in an invariant-satisfying configuration. -/
lemma vf_good : vfResult.1 = [] ∧ GoodCfg vfResult.1 vfResult.2 := by
  unfold vfResult vfFuel
  apply build_run
  · refine ⟨?_, ?_, ?_, ?_, ?_⟩
    · intro s hs
      rw [List.mem_singleton] at hs
      subst hs
      exact Reachable.init
    · intro b hb
      simp [VTable.empty] at hb
    · intro b hb
      simp [VTable.empty] at hb
    · exact Or.inr ⟨TicTacToe.init, List.mem_singleton.mpr rfl, rfl⟩
    · intro b hb
      simp [VTable.empty] at hb
  · have h := unvisited_le VTable.empty
    rw [List.length_singleton]
    omega

/-- The constructed table holds exactly the reachable boards. -/
lemma vfTable_mem_iff (b : Board) :
    vfResult.2.mem b = true ↔ BoardReachable b := by
  obtain ⟨hnil, hgood⟩ := vf_good
  rw [hnil] at hgood
  obtain ⟨hA, hB, hC, hD, hE⟩ := hgood
  constructor
  · exact hB b
  · rintro ⟨s, hs, rfl⟩
    induction hs with
    | init =>
      rcases hD with h | ⟨w, hw, -⟩
      · exact h
      · exact absurd hw (List.not_mem_nil w)
    | step row col hr hv ih =>
      rename_i s'
      have hsucc : (make_move s' row col).1 ∈ successors s' := by
        unfold successors
        exact List.mem_map.mpr ⟨(row, col), valid_mem_gvm hv, rfl⟩
      rcases hC s'.board ih s' hr rfl _ hsucc with h | ⟨w, hw, -⟩
      · exact h
      · exact absurd hw (List.not_mem_nil w)

/-- The stored value of a reachable board is the classified outcome of its
unique reachable state. -/
lemma vfTable_val_classify {b : Board} {s : TicTacToe} (hs : Reachable s)
    (hb : s.board = b) :
    vfResult.2.mem b = true ∧ classify s.winner = some (vfResult.2.val b) := by
  have hmem : vfResult.2.mem b = true := (vfTable_mem_iff b).2 ⟨s, hs, hb⟩
  refine ⟨hmem, ?_⟩
  obtain ⟨hnil, hgood⟩ := vf_good
  rw [hnil] at hgood
  exact hgood.2.2.2.2 b hmem s hs hb

/-- C1.  After `ValueFunction` construction completes, the value table
contains an entry exactly for every board reachable from the empty board
by a sequence of legal moves, and no entry for any other state; in
particular no state obtained by playing past a terminal position is
present (such play is rejected by `is_valid_move`, and its rejected
duplicates coincide with already-tabled boards).  A Python dict holds at
most one entry per key, so membership is exactly one entry. -/
theorem c1_enumeration_completeness :
    ∀ b : Board, vfResult.2.mem b = true ↔ BoardReachable b :=
  vfTable_mem_iff

/-- C2.  Immediately after construction, the stored value of every state
in the table (equivalently, by C1, of every reachable board) is 1 when X
has three-in-a-row, -1 when O has, 0 when the board is full with no line,
and 0 when the state is non-terminal. -/
theorem c2_terminal_values :
    ∀ b : Board, BoardReachable b →
      (isLine b 1 → vfResult.2.val b = 1) ∧
      (isLine b (-1) → vfResult.2.val b = -1) ∧
      (fullB b ∧ ¬ isLine b 1 ∧ ¬ isLine b (-1) → vfResult.2.val b = 0) ∧
      (¬ terminalB b → vfResult.2.val b = 0) := by
  rintro b ⟨s, hs, rfl⟩
  obtain ⟨hmem, hcl⟩ := vfTable_val_classify hs rfl
  obtain ⟨-, -, -, h4, h5, h6, -, -⟩ := stateInv_reachable hs
  refine ⟨?_, ?_, ?_, ?_⟩
  · intro hl
    rw [h4.mpr hl] at hcl
    simp [classify] at hcl
    exact hcl.symm
  · intro hl
    rw [h5.mpr hl] at hcl
    simp [classify] at hcl
    exact hcl.symm
  · rintro ⟨-, hl1, hl2⟩
    rw [h6.mpr ⟨hl1, hl2⟩] at hcl
    simp [classify] at hcl
    exact hcl.symm
  · intro ht
    have hl1 : ¬ isLine s.board 1 := fun h => ht (Or.inl h)
    have hl2 : ¬ isLine s.board (-1) := fun h => ht (Or.inr (Or.inl h))
    rw [h6.mpr ⟨hl1, hl2⟩] at hcl
    simp [classify] at hcl
    exact hcl.symm

/-- Witness for C2 at the (reachable) empty board. -/
theorem c2_terminal_values_witness :
    BoardReachable TicTacToe.init.board ∧
      ((isLine TicTacToe.init.board 1 →
          vfResult.2.val TicTacToe.init.board = 1) ∧
        (isLine TicTacToe.init.board (-1) →
          vfResult.2.val TicTacToe.init.board = -1) ∧
        (fullB TicTacToe.init.board ∧ ¬ isLine TicTacToe.init.board 1 ∧
            ¬ isLine TicTacToe.init.board (-1) →
          vfResult.2.val TicTacToe.init.board = 0) ∧
        (¬ terminalB TicTacToe.init.board →
          vfResult.2.val TicTacToe.init.board = 0)) :=
  ⟨⟨TicTacToe.init, Reachable.init, rfl⟩,
    c2_terminal_values TicTacToe.init.board
      ⟨TicTacToe.init, Reachable.init, rfl⟩⟩

/-- Unpacking a successful `update_value`: both keys were present, the key
set is unchanged, the written cell holds the TD(0) value, and every other
cell is untouched. -/
lemma update_value_elim {t t1 : VTable} {s sP : Board} {a : ℚ}
    (h : update_value t s sP a = some t1) :
    t.mem s = true ∧ t.mem sP = true ∧ t1.mem = t.mem ∧
      t1.val s = t.val s + a * (t.val sP - t.val s) ∧
      ∀ b : Board, b ≠ s → t1.val b = t.val b := by
  unfold update_value at h
  by_cases h1 : t.mem s = true
  · rw [if_pos h1] at h
    by_cases h2 : t.mem sP = true
    · rw [if_pos h2] at h
      obtain rfl := Option.some.inj h
      refine ⟨h1, h2, rfl, by simp, fun b hb => by simp [hb]⟩
    · rw [if_neg h2] at h; cases h
  · rw [if_neg h1] at h; cases h

/-- The property asserted by the original claim C3: the new value lies
strictly between the old value and the successor value, or equals both
when they were already equal. -/
def strictBetween (old new vp : ℚ) : Prop :=
  (old = vp ∧ new = old) ∨ (old < new ∧ new < vp) ∨ (vp < new ∧ new < old)

/-- Two-entry table for the C3 counterexample: empty board with value 0,
one-X board with value 1. -/
def c3B0 : Board := TicTacToe.init.board

/-- The board holding a single X mark. -/
def c3B1 : Board := place TicTacToe.init.board 0 0 1

/-- The counterexample table. -/
def c3t : VTable :=
  ⟨fun b => decide (b = c3B0) || decide (b = c3B1),
    fun b => if b = c3B1 then 1 else 0⟩

/-- The table after `update_value(c3B0, c3B1, alpha=1)`. -/
def c3tN : VTable := (update_value c3t c3B0 c3B1 1).getD VTable.empty

/-- Counterexample to C3 as stated: with alpha = 1 (inside the claimed
interval (0,1]) and distinct stored values 0 and 1, the update writes
exactly the successor value 1, which is not strictly between 0 and 1, and
the two values were not equal. -/
theorem c3_strict_between_counterexample :
    (0 : ℚ) < 1 ∧ (1 : ℚ) ≤ 1 ∧
      c3t.mem c3B0 = true ∧ c3t.mem c3B1 = true ∧
      update_value c3t c3B0 c3B1 1 = some c3tN ∧
      c3t.val c3B0 = 0 ∧ c3t.val c3B1 = 1 ∧ c3tN.val c3B0 = 1 ∧
      ¬ strictBetween (c3t.val c3B0) (c3tN.val c3B0) (c3t.val c3B1) := by
  have e0 : c3t.val c3B0 = 0 := by
    show (if c3B0 = c3B1 then (1 : ℚ) else 0) = 0
    rw [if_neg (by decide)]
  have e1 : c3t.val c3B1 = 1 := by
    show (if c3B1 = c3B1 then (1 : ℚ) else 0) = 1
    rw [if_pos rfl]
  have eN : c3tN.val c3B0 = 1 := by
    show c3t.val c3B0 + 1 * (c3t.val c3B1 - c3t.val c3B0) = 1
    rw [e0, e1]
    norm_num
  refine ⟨by norm_num, le_refl 1, by decide, by decide, rfl, e0, e1, eN, ?_⟩
  unfold strictBetween
  rw [e0, e1, eN]
  norm_num

/-- C3 (amended).  For keys present in the table and alpha in (0,1), the
updated value of `s` lies strictly between its old value and the value of
the successor (equalling both when they were already equal); for
alpha = 1 the updated value equals the successor value exactly. -/
theorem c3_update_direction (t : VTable) (s sP : Board) (a : ℚ)
    (t1 : VTable) (h0 : 0 < a) (h1 : a ≤ 1)
    (hu : update_value t s sP a = some t1) :
    (t.val s = t.val sP → t1.val s = t.val s) ∧
    (a < 1 → t.val s < t.val sP →
      t.val s < t1.val s ∧ t1.val s < t.val sP) ∧
    (a < 1 → t.val sP < t.val s →
      t.val sP < t1.val s ∧ t1.val s < t.val s) ∧
    (a = 1 → t1.val s = t.val sP) := by
  obtain ⟨-, -, -, hval, -⟩ := update_value_elim hu
  refine ⟨?_, ?_, ?_, ?_⟩
  · intro he
    rw [hval, he]
    ring
  · intro ha hlt
    constructor
    · rw [hval]
      nlinarith [mul_pos h0 (sub_pos.mpr hlt)]
    · rw [hval]
      nlinarith [mul_pos (sub_pos.mpr ha) (sub_pos.mpr hlt)]
  · intro ha hlt
    constructor
    · rw [hval]
      nlinarith [mul_pos (sub_pos.mpr ha) (sub_pos.mpr hlt)]
    · rw [hval]
      nlinarith [mul_pos h0 (sub_pos.mpr hlt)]
  · intro ha
    rw [hval, ha]
    ring

/-- The table after `update_value(c3B0, c3B1, alpha=1/2)`. -/
def c3tH : VTable := (update_value c3t c3B0 c3B1 (1 / 2)).getD VTable.empty

/-- Witness for the amended C3 at alpha = 1/2 on the two-entry table. -/
theorem c3_update_direction_witness :
    (0 : ℚ) < 1 / 2 ∧ (1 : ℚ) / 2 ≤ 1 ∧
      update_value c3t c3B0 c3B1 (1 / 2) = some c3tH ∧
      ((c3t.val c3B0 = c3t.val c3B1 → c3tH.val c3B0 = c3t.val c3B0) ∧
        (1 / 2 < (1 : ℚ) → c3t.val c3B0 < c3t.val c3B1 →
          c3t.val c3B0 < c3tH.val c3B0 ∧ c3tH.val c3B0 < c3t.val c3B1) ∧
        (1 / 2 < (1 : ℚ) → c3t.val c3B1 < c3t.val c3B0 →
          c3t.val c3B1 < c3tH.val c3B0 ∧ c3tH.val c3B0 < c3t.val c3B0) ∧
        ((1 : ℚ) / 2 = 1 → c3tH.val c3B0 = c3t.val c3B1)) :=
  ⟨by norm_num, by norm_num, rfl,
    c3_update_direction c3t c3B0 c3B1 (1 / 2) c3tH (by norm_num)
      (by norm_num) rfl⟩

/-- A sequence of `update_value` calls, aborting at the first KeyError
(`get_value` calls never mutate the table and need no modelling here). -/
def run_updates : VTable → List (Board × Board × ℚ) → Option VTable
  | t, [] => some t
  | t, (s, sP, a) :: rest =>
    match update_value t s sP a with
    | none => none
    | some t1 => run_updates t1 rest

/-- C4.  If no `update_value` call takes a terminal state as predecessor,
every terminal board keeps exactly the value (and key membership) it had
at the start — applied to the freshly constructed table, whose terminal
values are their outcome values by C2, they remain those outcome values
for the whole lifetime. -/
theorem c4_terminal_values_preserved :
    ∀ (ops : List (Board × Board × ℚ)) (t t1 : VTable),
      (∀ op ∈ ops, ¬ terminalB op.1) →
      run_updates t ops = some t1 →
      ∀ b : Board, terminalB b → t1.val b = t.val b ∧ t1.mem b = t.mem b := by
  intro ops
  induction ops with
  | nil =>
    intro t t1 hops hr b hb
    obtain rfl := Option.some.inj hr
    exact ⟨rfl, rfl⟩
  | cons op rest ih =>
    obtain ⟨s, sP, a⟩ := op
    intro t t1 hops hr b hb
    have hs : ¬ terminalB s := hops (s, sP, a) (List.mem_cons_self _ _)
    cases hu : update_value t s sP a with
    | none =>
      rw [show run_updates t ((s, sP, a) :: rest) =
        match update_value t s sP a with
        | none => none
        | some t1 => run_updates t1 rest from rfl, hu] at hr
      cases hr
    | some tm =>
      rw [show run_updates t ((s, sP, a) :: rest) =
        match update_value t s sP a with
        | none => none
        | some t1 => run_updates t1 rest from rfl, hu] at hr
      obtain ⟨-, -, hmem, -, hother⟩ := update_value_elim hu
      have hbs : b ≠ s := fun he => hs (he ▸ hb)
      obtain ⟨hv, hm⟩ :=
        ih tm t1 (fun op hop => hops op (List.mem_cons_of_mem _ hop)) hr b hb
      exact ⟨hv.trans (hother b hbs), hm.trans (congrFun hmem b)⟩

/-- One-entry table (the empty board, value 0) for the C4 witness. -/
def c4t : VTable := ⟨fun b => decide (b = TicTacToe.init.board), fun _ => 0⟩

/-- A single non-terminal-predecessor update for the C4 witness. -/
def c4ops : List (Board × Board × ℚ) :=
  [(TicTacToe.init.board, TicTacToe.init.board, 1 / 2)]

/-- The table after running the C4 witness updates. -/
def c4tN : VTable := (run_updates c4t c4ops).getD VTable.empty

/-- Witness for C4: one legal update sequence on a concrete table. -/
theorem c4_terminal_values_preserved_witness :
    (∀ op ∈ c4ops, ¬ terminalB op.1) ∧
      run_updates c4t c4ops = some c4tN ∧
      ∀ b : Board, terminalB b → c4tN.val b = c4t.val b ∧
        c4tN.mem b = c4t.mem b :=
  ⟨by decide, rfl,
    c4_terminal_values_preserved c4ops c4t c4tN (by decide) rfl⟩

/-- C10.  `update_value` raises a KeyError exactly when either state is
missing from the table; both lookups happen before the single write, so
on the error path no table is produced and the caller's table is the
untouched original. -/
theorem c10_update_missing_key :
    ∀ (t : VTable) (s sP : Board) (a : ℚ),
      (t.mem s = false ∨ t.mem sP = false) ↔
        update_value t s sP a = none := by
  intro t s sP a
  unfold update_value
  by_cases h1 : t.mem s = true
  · rw [if_pos h1]
    by_cases h2 : t.mem sP = true
    · rw [if_pos h2]
      constructor
      · rintro (h | h)
        · rw [h1] at h; cases h
        · rw [h2] at h; cases h
      · intro hc; cases hc
    · rw [if_neg h2]
      exact ⟨fun _ => rfl, fun _ => Or.inr (by simpa using h2)⟩
  · rw [if_neg h1]
    exact ⟨fun _ => rfl, fun _ => Or.inl (by simpa using h1)⟩

/-- A finished game (X wins the top row in five plies), reached by legal
moves; its board still has four empty cells. -/
def sWon : TicTacToe :=
  (make_move
    ((make_move
      ((make_move
        ((make_move
          ((make_move TicTacToe.init 0 0).1) 1 0).1) 0 1).1) 1 1).1) 0 2).1

/-- Counterexample to C5 as stated: `get_valid_moves` ignores the
game-over flag, so on a terminal (won) position with empty cells the
returned sequence is not empty, refuting "empty if the game is already
terminal". -/
theorem c5_terminal_moves_counterexample :
    sWon.game_over = true ∧ get_valid_moves sWon ≠ [] := by
  constructor
  · decide
  · decide

/-- C5 (amended).  The legal-move enumeration returns exactly one
(row, col) pair per empty cell, scanned in row-major order, and the
returned sequence is empty exactly when the board is full — terminal
positions with free cells still return their free cells. -/
theorem c5_legal_moves_rowmajor :
    ∀ s : TicTacToe,
      get_valid_moves s = rowMajorEmptyCells s.board ∧
        (get_valid_moves s = [] ↔ fullB s.board) :=
  fun s => ⟨boardValidMoves_eq s.board, boardValidMoves_nil_iff s.board⟩

/-- C6.  A move request on a terminal game, with an out-of-range
coordinate, or onto an occupied cell is rejected: `make_move` returns
`(False, None)` and every field of the state (board, current player,
game-over flag, winner) is exactly as before. -/
theorem c6_invalid_move_rejected :
    ∀ (s : TicTacToe) (row col : Int),
      (s.game_over = true ∨ row < 0 ∨ 3 ≤ row ∨ col < 0 ∨ 3 ≤ col ∨
        s.board (idx row) (idx col) ≠ 0) →
      make_move s row col = (s, false, none) := by
  intro s row col h
  have hv : is_valid_move s row col = false := by
    unfold is_valid_move
    by_cases hg : s.game_over = true
    · rw [if_pos hg]
    · rw [if_neg hg]
      by_cases hb : ¬(0 ≤ row ∧ row < 3 ∧ 0 ≤ col ∧ col < 3)
      · rw [if_pos hb]
      · rw [if_neg hb]
        obtain ⟨h1, h2, h3, h4⟩ := not_not.1 hb
        rcases h with h | h | h | h | h | h
        · exact absurd h hg
        · exfalso; omega
        · exfalso; omega
        · exfalso; omega
        · exfalso; omega
        · exact decide_eq_false h
  unfold make_move
  rw [if_neg (fun hc => by rw [hv] at hc; cases hc)]

/-- A state with the (0,0) cell occupied, for the C6 witness. -/
def c6s : TicTacToe := (make_move TicTacToe.init 0 0).1

/-- Witness for C6: replaying onto the occupied (0,0) cell is rejected. -/
theorem c6_invalid_move_rejected_witness :
    (c6s.game_over = true ∨ (0 : Int) < 0 ∨ 3 ≤ (0 : Int) ∨ (0 : Int) < 0 ∨
        3 ≤ (0 : Int) ∨ c6s.board (idx 0) (idx 0) ≠ 0) ∧
      make_move c6s 0 0 = (c6s, false, none) :=
  ⟨by decide, c6_invalid_move_rejected c6s 0 0 (by decide)⟩

/-- C8.  `lost_game` performs exactly the TD update from the role's
recorded previous state into the final state: on success the new agent is
the old one with only `value_function` replaced — exploration rate,
decay, previous-state cursors and alpha are untouched. -/
theorem c8_lost_game_frame :
    ∀ (ag : Agent) (g : TicTacToe) (p : Player) (vt : VTable),
      update_value ag.value_function (ag.previous_state p).board g.board
          ag.alpha = some vt →
      lost_game ag g p = some { ag with value_function := vt } := by
  intro ag g p vt hu
  unfold lost_game
  rw [hu]
  rfl

/-- One-key agent for the C8 witness. -/
def c8ag : Agent :=
  { value_function := ⟨fun b => decide (b = TicTacToe.init.board), fun _ => 0⟩
    exploration := 1 / 2
    exploration_decay := 99 / 100
    previous_state := fun _ => TicTacToe.init
    alpha := 1 / 10 }

/-- The updated table of the C8 witness. -/
def c8vt : VTable :=
  (update_value c8ag.value_function (c8ag.previous_state Player.X).board
    TicTacToe.init.board c8ag.alpha).getD VTable.empty

/-- Witness for C8 on a concrete agent and final state. -/
theorem c8_lost_game_frame_witness :
    update_value c8ag.value_function (c8ag.previous_state Player.X).board
        TicTacToe.init.board c8ag.alpha = some c8vt ∧
      lost_game c8ag TicTacToe.init Player.X =
        some { c8ag with value_function := c8vt } :=
  ⟨rfl, c8_lost_game_frame c8ag TicTacToe.init Player.X c8vt rfl⟩

/-- Table for C9: every hypothetical successor of the empty board is a
key, all with value -1 (the X initialization bound). -/
def c9t : VTable :=
  ⟨fun b => (successors TicTacToe.init).any (fun u => decide (u.board = b)),
    fun _ => -1⟩

/-- Greedy (exploration = 0) agent over `c9t` for C9. -/
def c9ag : Agent :=
  { value_function := c9t
    exploration := 0
    exploration_decay := 99 / 100
    previous_state := fun _ => TicTacToe.init
    alpha := 1 / 10 }

/-- C9.  `get_move` can fail on a non-terminal state with legal moves:
with exploration 0 and every successor valued at the X initialization
bound -1, no move strictly improves the bound, `best_move` stays `None`,
and subscripting the `None` chosen move raises — so "no legal moves" is
not the only failure condition. -/
theorem c9_get_move_failure :
    get_move c9ag TicTacToe.init Player.X 1 0 = none ∧
      get_valid_moves TicTacToe.init ≠ [] ∧
      TicTacToe.init.game_over = false := by
  refine ⟨?_, by decide, rfl⟩
  rfl

/-- Board of the hypothetical state `get_move` builds for a move. -/
def succBoard (g : TicTacToe) (m : Int × Int) : Board :=
  ((make_move g m.1 m.2).1).board

/-- Stored value of the hypothetical successor reached by a move. -/
def succValue (vt : VTable) (g : TicTacToe) (m : Int × Int) : ℚ :=
  vt.val (succBoard g m)

/-- The selection fold for role X, characterized extensionally: it returns
the running maximum, every scanned value is bounded by it, and the kept
move is the first one attaining the maximum strictly above the
accumulator (the accumulator survives when nothing improves on it). -/
lemma select_loop_X (vt : VTable) (g : TicTacToe) :
    ∀ (ms : List (Int × Int)) (accM : Option (Int × Int)) (accV : ℚ),
      (∀ m ∈ ms, vt.mem (succBoard g m) = true) →
      ∃ bm bv,
        select_loop Player.X vt g ms (accM, accV) = some (bm, bv) ∧
          accV ≤ bv ∧
          (∀ m ∈ ms, succValue vt g m ≤ bv) ∧
          ((bm = accM ∧ bv = accV) ∨
            ∃ (i : Nat) (hi : i < ms.length),
              bm = some (ms.get ⟨i, hi⟩) ∧
                succValue vt g (ms.get ⟨i, hi⟩) = bv ∧ accV < bv ∧
                ∀ (j : Nat) (hj : j < ms.length), j < i →
                  succValue vt g (ms.get ⟨j, hj⟩) < bv) := by
  intro ms
  induction ms with
  | nil =>
    intro accM accV hmem
    exact ⟨accM, accV, rfl, le_refl _, by simp, Or.inl ⟨rfl, rfl⟩⟩
  | cons m rest ih =>
    intro accM accV hmem
    have hm : vt.mem (succBoard g m) = true := hmem m (List.mem_cons_self _ _)
    have hgv : get_value vt ((make_move g m.1 m.2).1).board =
        some (succValue vt g m) := by
      unfold get_value succValue succBoard
      exact if_pos hm
    by_cases hlt : accV < succValue vt g m
    · obtain ⟨bm, bv, hsel, hle, hall, hcase⟩ :=
        ih (some m) (succValue vt g m)
          (fun x hx => hmem x (List.mem_cons_of_mem _ hx))
      refine ⟨bm, bv, ?_, le_of_lt (lt_of_lt_of_le hlt hle), ?_, ?_⟩
      · simp only [select_loop, hgv]
        rw [if_true, if_pos hlt]
        exact hsel
      · intro x hx
        rcases List.mem_cons.mp hx with rfl | hx'
        · exact hle
        · exact hall x hx'
      · rcases hcase with ⟨hbm, hbv⟩ | ⟨i, hi, hbm, hval, hacc, hearly⟩
        · right
          refine ⟨0, Nat.succ_pos _, hbm, ?_, ?_, ?_⟩
          · exact hbv.symm
          · rw [hbv]; exact hlt
          · intro j hj hj0
            exact absurd hj0 (Nat.not_lt_zero j)
        · right
          refine ⟨i + 1, Nat.succ_lt_succ hi, hbm, hval, lt_trans hlt hacc, ?_⟩
          intro j hj hji
          cases j with
          | zero => exact hacc
          | succ jP =>
            exact hearly jP (Nat.lt_of_succ_lt_succ hj)
              (Nat.lt_of_succ_lt_succ hji)
    · obtain ⟨bm, bv, hsel, hle, hall, hcase⟩ :=
        ih accM accV (fun x hx => hmem x (List.mem_cons_of_mem _ hx))
      have hge : succValue vt g m ≤ accV := le_of_not_lt hlt
      refine ⟨bm, bv, ?_, hle, ?_, ?_⟩
      · simp only [select_loop, hgv]
        rw [if_true, if_neg hlt]
        exact hsel
      · intro x hx
        rcases List.mem_cons.mp hx with rfl | hx'
        · exact le_trans hge hle
        · exact hall x hx'
      · rcases hcase with ⟨hbm, hbv⟩ | ⟨i, hi, hbm, hval, hacc, hearly⟩
        · exact Or.inl ⟨hbm, hbv⟩
        · right
          refine ⟨i + 1, Nat.succ_lt_succ hi, hbm, hval, hacc, ?_⟩
          intro j hj hji
          cases j with
          | zero => exact lt_of_le_of_lt hge hacc
          | succ jP =>
            exact hearly jP (Nat.lt_of_succ_lt_succ hj)
              (Nat.lt_of_succ_lt_succ hji)

/-- The selection fold for role O: dual of `select_loop_X` (running
minimum; only strictly smaller values replace; first minimizer kept). -/
lemma select_loop_O (vt : VTable) (g : TicTacToe) :
    ∀ (ms : List (Int × Int)) (accM : Option (Int × Int)) (accV : ℚ),
      (∀ m ∈ ms, vt.mem (succBoard g m) = true) →
      ∃ bm bv,
        select_loop Player.O vt g ms (accM, accV) = some (bm, bv) ∧
          bv ≤ accV ∧
          (∀ m ∈ ms, bv ≤ succValue vt g m) ∧
          ((bm = accM ∧ bv = accV) ∨
            ∃ (i : Nat) (hi : i < ms.length),
              bm = some (ms.get ⟨i, hi⟩) ∧
                succValue vt g (ms.get ⟨i, hi⟩) = bv ∧ bv < accV ∧
                ∀ (j : Nat) (hj : j < ms.length), j < i →
                  bv < succValue vt g (ms.get ⟨j, hj⟩)) := by
  intro ms
  induction ms with
  | nil =>
    intro accM accV hmem
    exact ⟨accM, accV, rfl, le_refl _, by simp, Or.inl ⟨rfl, rfl⟩⟩
  | cons m rest ih =>
    intro accM accV hmem
    have hm : vt.mem (succBoard g m) = true := hmem m (List.mem_cons_self _ _)
    have hgv : get_value vt ((make_move g m.1 m.2).1).board =
        some (succValue vt g m) := by
      unfold get_value succValue succBoard
      exact if_pos hm
    by_cases hlt : succValue vt g m < accV
    · obtain ⟨bm, bv, hsel, hle, hall, hcase⟩ :=
        ih (some m) (succValue vt g m)
          (fun x hx => hmem x (List.mem_cons_of_mem _ hx))
      refine ⟨bm, bv, ?_, le_of_lt (lt_of_le_of_lt hle hlt), ?_, ?_⟩
      · simp only [select_loop, hgv]
        rw [if_neg (by decide), if_pos hlt]
        exact hsel
      · intro x hx
        rcases List.mem_cons.mp hx with rfl | hx'
        · exact hle
        · exact hall x hx'
      · rcases hcase with ⟨hbm, hbv⟩ | ⟨i, hi, hbm, hval, hacc, hearly⟩
        · right
          refine ⟨0, Nat.succ_pos _, hbm, ?_, ?_, ?_⟩
          · exact hbv.symm
          · rw [hbv]; exact hlt
          · intro j hj hj0
            exact absurd hj0 (Nat.not_lt_zero j)
        · right
          refine ⟨i + 1, Nat.succ_lt_succ hi, hbm, hval, lt_trans hacc hlt, ?_⟩
          intro j hj hji
          cases j with
          | zero => exact hacc
          | succ jP =>
            exact hearly jP (Nat.lt_of_succ_lt_succ hj)
              (Nat.lt_of_succ_lt_succ hji)
    · obtain ⟨bm, bv, hsel, hle, hall, hcase⟩ :=
        ih accM accV (fun x hx => hmem x (List.mem_cons_of_mem _ hx))
      have hge : accV ≤ succValue vt g m := le_of_not_lt hlt
      refine ⟨bm, bv, ?_, hle, ?_, ?_⟩
      · simp only [select_loop, hgv]
        rw [if_neg (by decide), if_neg hlt]
        exact hsel
      · intro x hx
        rcases List.mem_cons.mp hx with rfl | hx'
        · exact le_trans hle hge
        · exact hall x hx'
      · rcases hcase with ⟨hbm, hbv⟩ | ⟨i, hi, hbm, hval, hacc, hearly⟩
        · exact Or.inl ⟨hbm, hbv⟩
        · right
          refine ⟨i + 1, Nat.succ_lt_succ hi, hbm, hval, hacc, ?_⟩
          intro j hj hji
          cases j with
          | zero => exact lt_of_lt_of_le hacc hge
          | succ jP =>
            exact hearly jP (Nat.lt_of_succ_lt_succ hj)
              (Nat.lt_of_succ_lt_succ hji)

/-- C7.  The best-move scan of `get_move`, with all hypothetical successor
lookups succeeding: for role X the returned best value bounds every
successor value from above and the kept move is the first one attaining
it, provided it strictly exceeds the initialization bound -1 (otherwise
no move is kept); for role O dually with bound 1 and minimization.  Later
equal-valued moves never replace the kept one. -/
theorem c7_greedy_selection :
    ∀ (vt : VTable) (g : TicTacToe),
      (∀ m ∈ get_valid_moves g, vt.mem (succBoard g m) = true) →
      (∃ bm bv,
        select_best vt g Player.X = some (bm, bv) ∧
          (∀ m ∈ get_valid_moves g, succValue vt g m ≤ bv) ∧
          ((bm = none ∧ bv = -1) ∨
            ∃ (i : Nat) (hi : i < (get_valid_moves g).length),
              bm = some ((get_valid_moves g).get ⟨i, hi⟩) ∧
                succValue vt g ((get_valid_moves g).get ⟨i, hi⟩) = bv ∧
                (-1 : ℚ) < bv ∧
                ∀ (j : Nat) (hj : j < (get_valid_moves g).length), j < i →
                  succValue vt g ((get_valid_moves g).get ⟨j, hj⟩) < bv)) ∧
      (∃ bm bv,
        select_best vt g Player.O = some (bm, bv) ∧
          (∀ m ∈ get_valid_moves g, bv ≤ succValue vt g m) ∧
          ((bm = none ∧ bv = 1) ∨
            ∃ (i : Nat) (hi : i < (get_valid_moves g).length),
              bm = some ((get_valid_moves g).get ⟨i, hi⟩) ∧
                succValue vt g ((get_valid_moves g).get ⟨i, hi⟩) = bv ∧
                bv < (1 : ℚ) ∧
                ∀ (j : Nat) (hj : j < (get_valid_moves g).length), j < i →
                  bv < succValue vt g ((get_valid_moves g).get ⟨j, hj⟩))) := by
  intro vt g hmem
  constructor
  · obtain ⟨bm, bv, hsel, -, hall, hcase⟩ :=
      select_loop_X vt g (get_valid_moves g) none (-1) hmem
    exact ⟨bm, bv, hsel, hall, hcase⟩
  · obtain ⟨bm, bv, hsel, -, hall, hcase⟩ :=
      select_loop_O vt g (get_valid_moves g) none 1 hmem
    exact ⟨bm, bv, hsel, hall, hcase⟩

/-- Witness for C7 on the empty board over the table `c9t` (all
successors present, value -1). -/
theorem c7_greedy_selection_witness :
    (∀ m ∈ get_valid_moves TicTacToe.init,
        c9t.mem (succBoard TicTacToe.init m) = true) ∧
      ((∃ bm bv,
        select_best c9t TicTacToe.init Player.X = some (bm, bv) ∧
          (∀ m ∈ get_valid_moves TicTacToe.init,
            succValue c9t TicTacToe.init m ≤ bv) ∧
          ((bm = none ∧ bv = -1) ∨
            ∃ (i : Nat) (hi : i < (get_valid_moves TicTacToe.init).length),
              bm = some ((get_valid_moves TicTacToe.init).get ⟨i, hi⟩) ∧
                succValue c9t TicTacToe.init
                    ((get_valid_moves TicTacToe.init).get ⟨i, hi⟩) = bv ∧
                (-1 : ℚ) < bv ∧
                ∀ (j : Nat)
                  (hj : j < (get_valid_moves TicTacToe.init).length), j < i →
                  succValue c9t TicTacToe.init
                    ((get_valid_moves TicTacToe.init).get ⟨j, hj⟩) < bv)) ∧
      (∃ bm bv,
        select_best c9t TicTacToe.init Player.O = some (bm, bv) ∧
          (∀ m ∈ get_valid_moves TicTacToe.init,
            bv ≤ succValue c9t TicTacToe.init m) ∧
          ((bm = none ∧ bv = 1) ∨
            ∃ (i : Nat) (hi : i < (get_valid_moves TicTacToe.init).length),
              bm = some ((get_valid_moves TicTacToe.init).get ⟨i, hi⟩) ∧
                succValue c9t TicTacToe.init
                    ((get_valid_moves TicTacToe.init).get ⟨i, hi⟩) = bv ∧
                bv < (1 : ℚ) ∧
                ∀ (j : Nat)
                  (hj : j < (get_valid_moves TicTacToe.init).length), j < i →
                  bv < succValue c9t TicTacToe.init
                    ((get_valid_moves TicTacToe.init).get ⟨j, hj⟩)))) :=
  ⟨by decide, c7_greedy_selection c9t TicTacToe.init (by decide)⟩
